import Mathlib

/-!
Verification development for the awless template compilation pipeline
(package `template` and its `internal/ast` composite-value algebra).

The Go source is shallowly embedded:
* Go `interface{}` payloads occurring in templates are modelled by `GoValue`;
  `GoValue.vnull` models the nil interface value.
* Go maps (`map[string]interface{}`, `map[string]string`) are modelled by
  association lists with deterministic iteration order; Go's map iteration
  order is unspecified, so theorems about contents are stated up to
  membership wherever the order could differ.
* In-place mutation is modelled by returning updated values; pointer
  identity of `*ast.Statement` nodes is modelled by a numeric `sid` field.
* A Go runtime crash from calling a nil function value is modelled by the
  `CompileResult.crashed` outcome.
-/

namespace Awless

/-- Scalar Go `interface{}` payloads used in templates: nil, strings and
integers (the parser produces strings, ints and floats; floats play no role
in the claims and are omitted). -/
inductive GoValue where
  | vnull
  | vstr (s : String)
  | vint (n : Int)
deriving DecidableEq, Repr

/-! Association lists modelling Go maps. `alInsert` replaces the first
binding in place or appends, matching a map update with stable iteration
order; `alDelete` removes every binding of the key. -/

/-- Lookup in an association list (Go `v, ok := m[k]`, `ok` as `Option`). -/
def alGet {α : Type} : List (String × α) → String → Option α
  | [], _ => none
  | (k', v) :: rest, k => if k' = k then some v else alGet rest k

/-- Update of an association list (Go `m[k] = v`). -/
def alInsert {α : Type} : List (String × α) → String → α → List (String × α)
  | [], k, v => [(k, v)]
  | (k', v') :: rest, k, v =>
    if k' = k then (k, v) :: rest else (k', v') :: alInsert rest k v

/-- Deletion from an association list (Go `delete(m, k)`). -/
def alDelete {α : Type} (m : List (String × α)) (k : String) : List (String × α) :=
  m.filter (fun p => p.1 ≠ k)

/-- Keys of an association list (Go `for k := range m`). -/
def alKeys {α : Type} (m : List (String × α)) : List String :=
  m.map Prod.fst

/-- Values of an association list (Go `for _, v := range m`). -/
def alValues {α : Type} (m : List (String × α)) : List α :=
  m.map Prod.snd

/-- Merge the bindings of the second list into the first, later bindings
overwriting earlier ones (Go `for k, v := range f { m[k] = v }`). -/
def alInsertMany {α : Type} (m adds : List (String × α)) : List (String × α) :=
  adds.foldl (fun acc p => alInsert acc p.1 p.2) m

/-! The composite value algebra of `template/internal/ast/values.go`.
`List CompositeValue` is unfolded into the isomorphic `CompositeValueList`
so that all recursions are structural and kernel-reducible. -/

mutual
/-- The closed set of `ast.CompositeValue` implementations of `values.go`:
`interfaceValue`, `holeValue`, `aliasValue`, `referenceValue`, `listValue`.
Unfilled holes/aliases/references carry `GoValue.vnull` (Go nil `val`). -/
inductive CompositeValue where
  | interfaceValue (val : GoValue)
  | holeValue (hole : String) (val : GoValue)
  | aliasValue (aliasName : String) (val : GoValue)
  | referenceValue (ref : String) (val : GoValue)
  | listValue (vals : CompositeValueList)
deriving DecidableEq, Repr

/-- A list of composite values (the `vals` slice of `listValue`). -/
inductive CompositeValueList where
  | nil
  | cons (head : CompositeValue) (tail : CompositeValueList)
deriving DecidableEq, Repr
end

mutual
/-- `GetHoles` of `values.go`: a `holeValue` reports its hole name while its
`val` is nil; a `listValue` concatenates the reports of those children that
implement `WithHoles` (the others contribute nothing, exactly as the Go
type switch skips them). -/
def getHoles : CompositeValue → List String
  | .holeValue h v => if v = .vnull then [h] else []
  | .listValue vs => getHolesL vs
  | _ => []

/-- `GetHoles` over the children of a `listValue`, in order. -/
def getHolesL : CompositeValueList → List String
  | .nil => []
  | .cons v vs => getHoles v ++ getHolesL vs
end

mutual
/-- `ProcessHoles` of `values.go`: a `holeValue` whose name is a key of the
fillers takes that filler as its `val` (even a nil one) and reports the
consumed binding; a `listValue` recurses, merging the children's reports
into one map. Other variants return an empty map and do not change. -/
def processHoles : CompositeValue → List (String × GoValue) →
    CompositeValue × List (String × GoValue)
  | .holeValue h v, fills =>
    match alGet fills h with
    | some fill => (.holeValue h fill, [(h, fill)])
    | none => (.holeValue h v, [])
  | .listValue vs, fills =>
    let r := processHolesL vs fills
    (.listValue r.1, r.2)
  | v, _ => (v, [])

/-- `ProcessHoles` over the children of a `listValue`, merging the
returned maps left to right. -/
def processHolesL : CompositeValueList → List (String × GoValue) →
    CompositeValueList × List (String × GoValue)
  | .nil, _ => (.nil, [])
  | .cons v vs, fills =>
    let rv := processHoles v fills
    let rvs := processHolesL vs fills
    (.cons rv.1 rvs.1, alInsertMany rv.2 rvs.2)
end

mutual
/-- `GetRefs` of `values.go`: a `referenceValue` always reports its name
(filled or not); a `listValue` concatenates its `WithRefs` children. -/
def getRefs : CompositeValue → List String
  | .referenceValue r _ => [r]
  | .listValue vs => getRefsL vs
  | _ => []

/-- `GetRefs` over the children of a `listValue`, in order. -/
def getRefsL : CompositeValueList → List String
  | .nil => []
  | .cons v vs => getRefs v ++ getRefsL vs
end

mutual
/-- `ProcessRefs` of `values.go`: a `referenceValue` whose name is a key of
the map takes the mapped value as its `val`; lists recurse. -/
def processRefsCV : CompositeValue → List (String × GoValue) → CompositeValue
  | .referenceValue r v, fills =>
    match alGet fills r with
    | some fill => .referenceValue r fill
    | none => .referenceValue r v
  | .listValue vs, fills => .listValue (processRefsCVL vs fills)
  | v, _ => v

/-- `ProcessRefs` over the children of a `listValue`. -/
def processRefsCVL : CompositeValueList → List (String × GoValue) → CompositeValueList
  | .nil, _ => .nil
  | .cons v vs, fills => .cons (processRefsCV v fills) (processRefsCVL vs fills)
end

mutual
/-- `GetAliases` of `values.go`: an `aliasValue` always reports its alias
name, whether or not its `val` has been filled; a `listValue` concatenates
the reports of its `WithAlias` children. -/
def getAliases : CompositeValue → List String
  | .aliasValue a _ => [a]
  | .listValue vs => getAliasesL vs
  | _ => []

/-- `GetAliases` over the children of a `listValue`, in order. -/
def getAliasesL : CompositeValueList → List String
  | .nil => []
  | .cons v vs => getAliases v ++ getAliasesL vs
end

mutual
/-- `ResolveAlias` of `values.go`: an `aliasValue` unconditionally assigns
`resolvFunc(alias)` (a Go string) as its `val`; a `listValue` forwards the
resolver to its `WithAlias` children; other variants are untouched. -/
def resolveAlias (f : String → String) : CompositeValue → CompositeValue
  | .aliasValue a _ => .aliasValue a (.vstr (f a))
  | .listValue vs => .listValue (resolveAliasL f vs)
  | v => v

/-- `ResolveAlias` over the children of a `listValue`. -/
def resolveAliasL (f : String → String) : CompositeValueList → CompositeValueList
  | .nil => .nil
  | .cons v vs => .cons (resolveAlias f v) (resolveAliasL f vs)
end

/-- Whether a value implements the `ast.WithAlias` interface: in
`values.go` only `aliasValue` and `listValue` do. -/
def withAliasB : CompositeValue → Bool
  | .aliasValue _ _ => true
  | .listValue _ => true
  | _ => false

/-! Lexicographic string order, as used by Go's `sort.Strings` (byte order;
identical to code-point order on the ASCII identifiers at play). It is
implemented on the character lists so that it kernel-reduces. -/

/-- Lexicographic less-or-equal on character lists, by code point. -/
def listCharLe : List Char → List Char → Bool
  | [], _ => true
  | _ :: _, [] => false
  | c :: cs, d :: ds =>
    if c.toNat < d.toNat then true
    else if d.toNat < c.toNat then false
    else listCharLe cs ds

/-- Lexicographic less-or-equal on strings. -/
def strLe (a b : String) : Bool :=
  listCharLe a.data b.data

/-- Insert a string into a sorted list (auxiliary of `sortStrings`). -/
def insertStr (x : String) : List String → List String
  | [] => [x]
  | y :: ys => if strLe x y then x :: y :: ys else y :: insertStr x ys

/-- Sort a list of strings lexicographically (Go `sort.Strings`), by
insertion sort. -/
def sortStrings : List String → List String
  | [] => []
  | x :: xs => insertStr x (sortStrings xs)

/-! The AST entities. The node structs and their visit/clone helpers live in
`template/internal/ast/ast.go` and `template/template.go`, which are not part
of the provided sources; their shapes are fixed by `build.go` and by every
use in the compile passes, and the operations carried only by the missing
files are modelled from the spec (each such definition says so). -/

/-- A command schema: required and extra (optional) parameter keys, as
returned by the definition oracle (`def.Required()`, `def.Extra()`). -/
structure TemplateDefinition where
  required : List String
  extra : List String
deriving DecidableEq, Repr

/-- `ast.CommandNode`: action, entity, and the three key-indexed maps
`Params` (plain values), `Refs` (key to reference name) and `Holes`
(key to hole name), as built by `build.go`. -/
structure CommandNode where
  action : String
  entity : String
  params : List (String × GoValue)
  refs : List (String × String)
  holes : List (String × String)
deriving DecidableEq, Repr

/-- `ast.ActionNode`: like a command but with composite-value params
(`map[string]CompositeValue`), as built by `build.go`. -/
structure ActionNode where
  action : String
  entity : String
  params : List (String × CompositeValue)
deriving DecidableEq, Repr

/-- `ast.ValueNode`: the expression of a value assignment. Per `build.go`
it carries a plain `Value` and a `Hole` name (empty when the source had a
literal); an unfilled hole has `value = vnull`. -/
structure ValueNode where
  value : GoValue
  hole : String
deriving DecidableEq, Repr

/-- Modelled from the spec (ValueNode behaviour lives in the missing
`ast.go`): a `ValueNode` reports its hole name while the hole is present
and the value still nil. -/
def valueNodeHoles (v : ValueNode) : List String :=
  if v.hole ≠ "" ∧ v.value = .vnull then [v.hole] else []

/-- Modelled from the spec: filling a `ValueNode`'s hole assigns the filler
as its value and reports the consumed binding. -/
def valueNodeProcessHoles (v : ValueNode) (fills : List (String × GoValue)) :
    ValueNode × List (String × GoValue) :=
  if v.hole ≠ "" ∧ v.value = .vnull then
    match alGet fills v.hole with
    | some fill => ({ v with value := fill }, [(v.hole, fill)])
    | none => (v, [])
  else (v, [])

/-- Modelled from the spec: a `ValueNode` is resolved when it has no
unresolved holes (it carries no refs or aliases). -/
def valueNodeIsResolved (v : ValueNode) : Bool :=
  valueNodeHoles v = []

/-- Modelled from the spec: `Result()` of a `ValueNode` is its current
plain payload. -/
def valueNodeResult (v : ValueNode) : GoValue :=
  v.value

/-- The expression of an `ast.DeclarationNode`: a command or a value
(`build.go` assigns exactly these two shapes to `decl.Expr`). -/
inductive DeclExpr where
  | cmdExpr (cmd : CommandNode)
  | valExpr (v : ValueNode)
deriving DecidableEq, Repr

/-- An AST node held by a statement: a command, a declaration
(`ident = expr`), or an action node. -/
inductive Node where
  | cmdNode (cmd : CommandNode)
  | declNode (ident : String) (expr : DeclExpr)
  | actionNode (node : ActionNode)
deriving DecidableEq, Repr

/-- `ast.Statement`. The `sid` field models the pointer identity of the
`*ast.Statement`: two statements with the same `sid` are the same mutable
Go object, so mutating one is visible through the other. -/
structure Statement where
  sid : Nat
  node : Node
deriving DecidableEq, Repr

/-- `template.Template`: an ID and the statement list of its AST. -/
structure Template where
  id : String
  statements : List Statement
deriving DecidableEq, Repr

/-- The statement pointer identities of a template. -/
def stmtIds (t : Template) : List Nat :=
  t.statements.map Statement.sid

/-- The command carried by a node, directly or as a declaration's
expression (the case analysis of `checkInvalidReferenceDeclarations` and of
the command visitor). -/
def commandOfNode : Node → Option CommandNode
  | .cmdNode c => some c
  | .declNode _ (.cmdExpr c) => some c
  | _ => none

/-- The identifier of a declaration node, if the node is one. -/
def declIdentOfNode : Node → Option String
  | .declNode ident _ => some ident
  | _ => none

/-- Modelled from the spec (`visitCommandNodes` lives in the missing
`template.go`): rewrite every command of the template in document order,
both direct commands and commands inside declarations, keeping statement
identities. -/
def mapCommandNodes (tpl : Template) (f : CommandNode → CommandNode) : Template :=
  { tpl with
    statements := tpl.statements.map (fun st =>
      { st with
        node :=
          match st.node with
          | .cmdNode c => .cmdNode (f c)
          | .declNode ident (.cmdExpr c) => .declNode ident (.cmdExpr (f c))
          | other => other }) }

/-- Modelled from the spec (`visitCommandNodesE`): apply a fallible check
to every command in document order and return the first error. -/
def firstCommandError (tpl : Template) (f : CommandNode → Option String) :
    Option String :=
  tpl.statements.findSome? (fun st =>
    match commandOfNode st.node with
    | some c => f c
    | none => none)

/-- The commands of a template in document order. -/
def templateCommands (tpl : Template) : List CommandNode :=
  tpl.statements.filterMap (fun st => commandOfNode st.node)

/-- Modelled from the spec (`GetHoles` of `ast.CommandNode`): the hole
names of a command are the values of its `Holes` map (corroborated by
`failOnUnresolvedHoles`, which collects exactly those values). -/
def commandHoles (c : CommandNode) : List String :=
  alValues c.holes

/-- Modelled from the spec (`ProcessHoles` of `ast.CommandNode`, scenario
S2): for each `Holes` entry whose hole name is a filler key, move the
filler into `Params` at the entry's key, drop the hole, and report the
consumed binding. -/
def commandProcessHoles (c : CommandNode) (fills : List (String × GoValue)) :
    CommandNode × List (String × GoValue) :=
  c.holes.foldl
    (fun acc kh =>
      match alGet fills kh.2 with
      | some fill =>
        ({ acc.1 with
            params := alInsert acc.1.params kh.1 fill,
            holes := alDelete acc.1.holes kh.1 },
          alInsert acc.2 kh.2 fill)
      | none => acc)
    (c, [])

/-- Modelled from the spec (`ProcessRefs` of `ast.CommandNode`, pass 4.E.5
and scenario S3): every `Refs` entry whose reference name is resolved moves
into `Params` at its key and is removed from `Refs`. -/
def commandProcessRefs (c : CommandNode) (refs : List (String × GoValue)) :
    CommandNode :=
  c.refs.foldl
    (fun acc kr =>
      match alGet refs kr.2 with
      | some v =>
        { acc with
            params := alInsert acc.params kr.1 v,
            refs := alDelete acc.refs kr.1 }
      | none => acc)
    c

/-- The hole reports of one node, in the order `visitHoles` reaches them
(modelled from the spec: commands, value expressions of declarations, and
composite action params all carry holes). -/
def nodeHoles : Node → List String
  | .cmdNode c => commandHoles c
  | .declNode _ (.cmdExpr c) => commandHoles c
  | .declNode _ (.valExpr v) => valueNodeHoles v
  | .actionNode a => (a.params.map (fun kv => getHoles kv.2)).flatten

/-- Every unresolved hole name of the template, in document order. -/
def templateHoles (tpl : Template) : List String :=
  (tpl.statements.map (fun st => nodeHoles st.node)).flatten

/-- Fill the holes of one node (modelled from the spec: the `visitHoles`
traversal calls `ProcessHoles` on every hole-carrying value). Returns the
updated node and the consumed bindings. -/
def nodeProcessHoles (n : Node) (fills : List (String × GoValue)) :
    Node × List (String × GoValue) :=
  match n with
  | .cmdNode c =>
    let r := commandProcessHoles c fills
    (.cmdNode r.1, r.2)
  | .declNode ident (.cmdExpr c) =>
    let r := commandProcessHoles c fills
    (.declNode ident (.cmdExpr r.1), r.2)
  | .declNode ident (.valExpr v) =>
    let r := valueNodeProcessHoles v fills
    (.declNode ident (.valExpr r.1), r.2)
  | .actionNode a =>
    let r := a.params.foldl
      (fun acc kv =>
        let rv := processHoles kv.2 fills
        (alInsert acc.1 kv.1 rv.1, alInsertMany acc.2 rv.2))
      (a.params, [])
    (.actionNode { a with params := r.1 }, r.2)

/-- Fill the holes of the whole template, merging every node's consumed
bindings in document order. -/
def templateProcessHoles (tpl : Template) (fills : List (String × GoValue)) :
    Template × List (String × GoValue) :=
  let r := tpl.statements.foldl
    (fun acc st =>
      let rn := nodeProcessHoles st.node fills
      (acc.1 ++ [{ st with node := rn.1 }], alInsertMany acc.2 rn.2))
    ([], [])
  ({ tpl with statements := r.1 }, r.2)

/-! The compilation environment and the multi-pass compiler of the
`template` package. -/

/-- `template.Env`. Function-valued fields are `Option`s because the Go
fields are nilable function values. `Driver` and `Log` are omitted: the
passes only write diagnostics to the log. -/
structure Env where
  resolvedReferences : List (String × GoValue)
  fillers : List (String × GoValue)
  defLookupFunc : Option (String → Option TemplateDefinition)
  aliasFunc : Option (String → String → String → String)
  missingHolesFunc : Option (String → GoValue)
  processedFillers : List (String × GoValue)

/-- The outcome of one pass or of a whole compile: the returned template,
environment and error of the Go triple, or a Go runtime crash caused by
calling a nil function value. -/
inductive CompileResult where
  | ret (tpl : Template) (env : Env) (err : Option String)
  | crashed

/-- The type of one compile pass (`compileFunc`). -/
def CompileFunc : Type :=
  Template → Env → CompileResult

/-- Go `%v` rendering of a string slice: elements separated by spaces
inside brackets. -/
def goSliceFmt (xs : List String) : String :=
  "[" ++ String.intercalate " " xs ++ "]"

/-- Go `%q` rendering of a string slice, for strings that need no escaping:
each element double-quoted, separated by spaces inside brackets. -/
def goQuotedSliceFmt (xs : List String) : String :=
  "[" ++ String.intercalate " " (xs.map (fun s => "\"" ++ s ++ "\"")) ++ "]"

/-- When `s` is `"@" ++ rest` (Go `strings.HasPrefix(s, "@")`), the alias
`rest` (Go `strings.TrimPrefix(s, "@")`). -/
def atAliasOf (s : String) : Option String :=
  match s.data with
  | '@' :: rest => some (String.mk rest)
  | _ => none

/-- The schema check of `resolveAgainstDefinitions` for one command: the
definition must exist and every key of the command (its params and refs)
must be a required or extra key. -/
def checkCommandKeys (lookup : String → Option TemplateDefinition)
    (c : CommandNode) : Option String :=
  let tplKey := c.action ++ c.entity
  match lookup tplKey with
  | none => some ("cannot find template definition for '" ++ tplKey ++ "'")
  | some d =>
    match (alKeys c.params ++ alKeys c.refs).find?
        (fun k => !(d.required.contains k || d.extra.contains k)) with
    | some k =>
      let extraParams :=
        if d.extra.length > 0 then
          "\n\t- extra params: " ++ String.intercalate ", " d.extra
        else ""
      let requiredParams :=
        if d.required.length > 0 then
          "\n\t- required params: " ++ String.intercalate ", " d.required
        else ""
      some (c.action ++ " " ++ c.entity ++ ": unexpected param key '" ++ k ++ "'"
        ++ requiredParams ++ extraParams ++ "\n")
    | none => none

/-- One step of the hole-normalisation loop of `resolveAgainstDefinitions`
for one required key: keys satisfied by params or refs delete the
normalised hole `entity.key`; otherwise a hole at the key is kept if
present and inserted as `holes[key] = entity.key` if not. -/
def normalizeRequiredKey (c : CommandNode) (required : String) : CommandNode :=
  let isInParams := (alKeys c.params).contains required
  let isInRefs := (alKeys c.refs).contains required
  let normalized := c.entity ++ "." ++ required
  if isInParams || isInRefs then
    { c with holes := alDelete c.holes normalized }
  else if (alGet c.holes required).isSome then c
  else { c with holes := alInsert c.holes required normalized }

/-- The hole-normalisation of `resolveAgainstDefinitions` for one command:
fold `normalizeRequiredKey` over the definition's required keys in order.
A failed lookup yields the zero definition with no required keys; the
first phase has already ruled that out when this phase runs. -/
def normalizeCommand (lookup : String → Option TemplateDefinition)
    (c : CommandNode) : CommandNode :=
  let req :=
    match lookup (c.action ++ c.entity) with
    | some d => d.required
    | none => []
  req.foldl normalizeRequiredKey c

/-- Pass 4.E.1, `resolveAgainstDefinitions`: fail when the lookup function
is nil; check every command against its definition; then normalise the
holes of every command. -/
def resolveAgainstDefinitions : CompileFunc := fun tpl env =>
  match env.defLookupFunc with
  | none => .ret tpl env (some "definition lookup function is undefined")
  | some lookup =>
    match firstCommandError tpl (checkCommandKeys lookup) with
    | some e => .ret tpl env (some e)
    | none => .ret (mapCommandNodes tpl (normalizeCommand lookup)) env none

/-- The error of `checkInvalidReferenceDeclarations` for a reference used
before assignment. -/
def undefinedRefMsg (r : String) : String :=
  "using reference '$" ++ r ++ "' but '" ++ r ++ "' is undefined in template\n"

/-- The error of `checkInvalidReferenceDeclarations` for an identifier
assigned twice. -/
def alreadyAssignedMsg (r : String) : String :=
  "using reference '$" ++ r ++ "' but '" ++ r ++ "' has already been assigned in template\n"

/-- The statement walk of `checkInvalidReferenceDeclarations`: check the
refs of each command (direct or inside a declaration) against the
identifiers declared so far, then record the statement's identifier,
failing on a duplicate. -/
def checkRefsWalk : List Statement → List String → Option String
  | [], _ => none
  | st :: rest, known =>
    let cmdErr :=
      match commandOfNode st.node with
      | some c =>
        match (alValues c.refs).find? (fun r => !(known.contains r)) with
        | some r => some (undefinedRefMsg r)
        | none => none
      | none => none
    match cmdErr with
    | some e => some e
    | none =>
      match declIdentOfNode st.node with
      | some ident =>
        if known.contains ident then some (alreadyAssignedMsg ident)
        else checkRefsWalk rest (known ++ [ident])
      | none => checkRefsWalk rest known

/-- Pass 4.E.2, `checkInvalidReferenceDeclarations`: a forward walk with a
growing set of known identifiers; the template and environment are
returned unchanged. (The `usedRefs` map the Go code also builds is dead.) -/
def checkInvalidReferenceDeclarations : CompileFunc := fun tpl env =>
  .ret tpl env (checkRefsWalk tpl.statements [])

/-- Pass 4.E.3, `resolveHolesPass`: fill all holes from `env.Fillers` and
merge what was consumed into `env.processedFillers`. -/
def resolveHolesPass : CompileFunc := fun tpl env =>
  let r := templateProcessHoles tpl env.fillers
  .ret r.1 { env with processedFillers := alInsertMany env.processedFillers r.2 } none

/-- The distinct still-unresolved hole names of the template, sorted
lexicographically — the prompting order of `resolveMissingHolesPass`. -/
def sortedMissingHoles (tpl : Template) : List String :=
  sortStrings (templateHoles tpl).dedup

/-- The sequence of `env.MissingHolesFunc` invocations performed by
`resolveMissingHolesPass`: one call per sorted distinct hole name when the
callback is present, none when it is nil. -/
def missingHolesCallSequence (tpl : Template) (env : Env) : List String :=
  match env.missingHolesFunc with
  | some _ => sortedMissingHoles tpl
  | none => []

/-- Pass 4.E.4, `resolveMissingHolesPass`: collect the distinct unresolved
hole names, sort them, ask the missing-holes callback for each in sorted
order, fill all holes with the answers and merge what was consumed into
`env.processedFillers`. -/
def resolveMissingHolesPass : CompileFunc := fun tpl env =>
  let fillers := (sortedMissingHoles tpl).foldl
    (fun acc k =>
      match env.missingHolesFunc with
      | some f => alInsert acc k (f k)
      | none => acc)
    []
  let r := templateProcessHoles tpl fillers
  .ret r.1 { env with processedFillers := alInsertMany env.processedFillers r.2 } none

/-- Pass 4.E.5, `replaceVariableValuePass`: record the value of every
declaration whose expression is a resolved `ValueNode` into
`env.ResolvedReferences`, then propagate those references into every
command's params. -/
def replaceVariableValuePass : CompileFunc := fun tpl env =>
  let resolved := tpl.statements.foldl
    (fun acc st =>
      match st.node with
      | .declNode ident (.valExpr v) =>
        if valueNodeIsResolved v then alInsert acc ident (valueNodeResult v) else acc
      | _ => acc)
    env.resolvedReferences
  let tpl2 := mapCommandNodes tpl (fun c => commandProcessRefs c resolved)
  .ret tpl2 { env with resolvedReferences := resolved } none

/-- Whether a node is a declaration whose expression is a resolved value —
the statements that `removeValueStatementsPass` drops. -/
def isResolvedValueDecl : Node → Bool
  | .declNode _ (.valExpr v) => valueNodeIsResolved v
  | _ => false

/-- Pass 4.E.6, `removeValueStatementsPass`: build a new template with a
fresh statement list holding the input's own statement nodes, minus every
declaration of a resolved value. (The Go code clones the AST but then
appends the original `*ast.Statement` pointers, so the kept nodes are
shared with the input.) -/
def removeValueStatementsPass : CompileFunc := fun tpl env =>
  .ret { id := tpl.id,
         statements := tpl.statements.filter (fun st => !isResolvedValueDecl st.node) }
    env none

/-- The param rewrite of `resolveAliasPass` for one command: every string
param of the form `@alias` is resolved through `env.AliasFunc` (nil
resolver leaves it untouched); a non-empty result replaces the param and
deletes the same key from `Holes`, an empty result is collected as
unresolved. -/
def commandResolveAliases (af : Option (String → String → String → String))
    (c : CommandNode) : CommandNode × List String :=
  c.params.foldl
    (fun acc kv =>
      match kv.2 with
      | .vstr s =>
        match atAliasOf s with
        | some a =>
          match af with
          | none => acc
          | some f =>
            let actual := f acc.1.entity kv.1 a
            if actual = "" then (acc.1, acc.2 ++ [a])
            else
              ({ acc.1 with
                  params := alInsert acc.1.params kv.1 (.vstr actual),
                  holes := alDelete acc.1.holes kv.1 },
                acc.2)
        | none => acc
      | _ => acc)
    (c, [])

mutual
/-- The in-place alias resolution of `resolveAliasPass` for one composite
value of an action node, collecting the aliases the resolver answered with
the empty string (the closure appends them to `emptyResolv` and assigns
`""`). -/
def resolveAliasCollect (f : String → String) :
    CompositeValue → CompositeValue × List String
  | .aliasValue a _ =>
    let actual := f a
    if actual = "" then (.aliasValue a (.vstr ""), [a])
    else (.aliasValue a (.vstr actual), [])
  | .listValue vs =>
    let r := resolveAliasCollectL f vs
    (.listValue r.1, r.2)
  | v => (v, [])

/-- Alias resolution with collection over the children of a `listValue`. -/
def resolveAliasCollectL (f : String → String) :
    CompositeValueList → CompositeValueList × List String
  | .nil => (.nil, [])
  | .cons v vs =>
    let rv := resolveAliasCollect f v
    let rvs := resolveAliasCollectL f vs
    (.cons rv.1 rvs.1, rv.2 ++ rvs.2)
end

/-- The action-node rewrite of `resolveAliasPass`: for every param that
implements `WithAlias`, `ResolveAlias` is invoked with a closure that calls
`env.AliasFunc` without a nil check; when the resolver is nil and the value
would invoke it at least once (it reports at least one alias), the nil
function call crashes (`none`). -/
def actionResolveAliases (af : Option (String → String → String → String))
    (a : ActionNode) : Option (ActionNode × List String) :=
  a.params.foldl
    (fun acc kv =>
      match acc with
      | none => none
      | some st =>
        if withAliasB kv.2 then
          match af with
          | none => if getAliases kv.2 = [] then some st else none
          | some f =>
            let r := resolveAliasCollect (fun al => f a.entity kv.1 al) kv.2
            some ({ st.1 with params := alInsert st.1.params kv.1 r.1 }, st.2 ++ r.2)
        else some st)
    (some (a, []))

/-- The full traversal of `resolveAliasPass`: first every command's params
(in document order), then every action node; `none` models the crash on a
nil resolver. Returns the rewritten template and the accumulated
`emptyResolv` list. -/
def resolveAliasScan (tpl : Template) (env : Env) :
    Option (Template × List String) :=
  let phaseA := tpl.statements.foldl
    (fun acc st =>
      match st.node with
      | .cmdNode c =>
        let r := commandResolveAliases env.aliasFunc c
        (acc.1 ++ [{ st with node := .cmdNode r.1 }], acc.2 ++ r.2)
      | .declNode ident (.cmdExpr c) =>
        let r := commandResolveAliases env.aliasFunc c
        (acc.1 ++ [{ st with node := .declNode ident (.cmdExpr r.1) }], acc.2 ++ r.2)
      | _ => (acc.1 ++ [st], acc.2))
    ([], [])
  let phaseB := phaseA.1.foldl
    (fun acc st =>
      match acc with
      | none => none
      | some cur =>
        match st.node with
        | .actionNode a =>
          match actionResolveAliases env.aliasFunc a with
          | none => none
          | some r =>
            some (cur.1 ++ [{ st with node := .actionNode r.1 }], cur.2 ++ r.2)
        | _ => some (cur.1 ++ [st], cur.2))
    (some ([], phaseA.2))
  match phaseB with
  | none => none
  | some r => some ({ tpl with statements := r.1 }, r.2)

/-- The error of `resolveAliasPass` enumerating the unresolved aliases. -/
def aliasErrMsg (es : List String) : String :=
  "cannot resolve aliases: " ++ goQuotedSliceFmt es
    ++ ". Maybe you need to update your local model with `awless sync` ?"

/-- Pass 4.E.7, `resolveAliasPass`: resolve `@aliases` in command params
and in action-node composite params; fail when any alias resolved to the
empty string; crash when the resolver is nil and an action-node value
invokes it. -/
def resolveAliasPass : CompileFunc := fun tpl env =>
  match resolveAliasScan tpl env with
  | none => .crashed
  | some (t, []) => .ret t env none
  | some (t, es) => .ret t env (some (aliasErrMsg es))

/-- Pass 4.E.8, `failOnUnresolvedHoles`: fail when any command still has a
hole, listing the remaining hole names. -/
def failOnUnresolvedHoles : CompileFunc := fun tpl env =>
  match (templateCommands tpl).map commandHoles |>.flatten with
  | [] => .ret tpl env none
  | unresolved =>
    .ret tpl env (some ("template contains unresolved holes: " ++ goSliceFmt unresolved))

/-- Pass 4.E.9, `failOnUnresolvedAlias`: fail when any command param is
still a string starting with `@`, listing them. -/
def failOnUnresolvedAlias : CompileFunc := fun tpl env =>
  match (templateCommands tpl).map
      (fun c => (alValues c.params).filterMap (fun v =>
        match v with
        | .vstr s => if (atAliasOf s).isSome then some s else none
        | _ => none)) |>.flatten with
  | [] => .ret tpl env none
  | unresolved =>
    .ret tpl env (some ("template contains unresolved alias: " ++ goSliceFmt unresolved))

/-- `multiPass.compile`: run the passes in order, stopping at the first
error (returning that pass's template and environment) and propagating a
crash. -/
def runPasses : List CompileFunc → Template → Env → CompileResult
  | [], tpl, env => .ret tpl env none
  | p :: rest, tpl, env =>
    match p tpl env with
    | .ret t e none => runPasses rest t e
    | .ret t e (some err) => .ret t e (some err)
    | .crashed => .crashed

/-- `LenientCompileMode`: passes 4.E.1 through 4.E.7. -/
def LenientCompileMode : List CompileFunc :=
  [resolveAgainstDefinitions,
   checkInvalidReferenceDeclarations,
   resolveHolesPass,
   resolveMissingHolesPass,
   replaceVariableValuePass,
   removeValueStatementsPass,
   resolveAliasPass]

/-- `NormalCompileMode`: the lenient passes plus the two strict checks. -/
def NormalCompileMode : List CompileFunc :=
  LenientCompileMode ++ [failOnUnresolvedHoles, failOnUnresolvedAlias]

/-- `template.Compile`: run the given mode, defaulting to normal mode when
none is passed (the Go variadic `mode ...Mode`). -/
def Compile (tpl : Template) (env : Env) (mode : Option (List CompileFunc)) :
    CompileResult :=
  runPasses (mode.getD NormalCompileMode) tpl env

/-! Helper lemmas about association lists. -/

theorem alGet_isSome_iff_mem_keys {α : Type} (m : List (String × α)) (k : String) :
    (alGet m k).isSome ↔ k ∈ alKeys m := by
  induction m with
  | nil => simp [alGet, alKeys]
  | cons p rest ih =>
    by_cases h : p.1 = k
    · simp [alGet, alKeys, h]
    · simp [alGet, alKeys, h, ih, Ne.symm h]

theorem mem_keys_of_alGet_eq_some {α : Type} {m : List (String × α)} {k : String}
    {v : α} (h : alGet m k = some v) : k ∈ alKeys m := by
  have := (alGet_isSome_iff_mem_keys m k).mp (by simp [h])
  exact this

theorem not_mem_keys_of_alGet_eq_none {α : Type} {m : List (String × α)} {k : String}
    (h : alGet m k = none) : k ∉ alKeys m := by
  intro hk
  have := (alGet_isSome_iff_mem_keys m k).mpr hk
  simp [h] at this

theorem alKeys_cons {α : Type} (p : String × α) (rest : List (String × α)) :
    alKeys (p :: rest) = p.1 :: alKeys rest := rfl

theorem mem_of_alGet_eq_some {α : Type} {m : List (String × α)} {k : String}
    {v : α} (h : alGet m k = some v) : (k, v) ∈ m := by
  induction m with
  | nil => simp [alGet] at h
  | cons p rest ih =>
    by_cases hp : p.1 = k
    · simp only [alGet, hp, if_pos] at h
      cases p with
      | mk k' v' =>
        simp at hp h
        subst hp
        subst h
        exact List.mem_cons_self _ _
    · simp only [alGet, hp, if_neg, ite_false] at h
      exact List.mem_cons_of_mem _ (ih h)

theorem mem_keys_alInsert_self {α : Type} (m : List (String × α)) (k : String) (v : α) :
    k ∈ alKeys (alInsert m k v) := by
  induction m with
  | nil => simp [alInsert, alKeys]
  | cons p rest ih =>
    by_cases hp : p.1 = k
    · simp [alInsert, hp, alKeys_cons]
    · simp only [alInsert, hp, ite_false, alKeys_cons, List.mem_cons]
      right
      exact ih

theorem mem_keys_alInsert_of_mem {α : Type} {m : List (String × α)} {x : String}
    (k : String) (v : α) (h : x ∈ alKeys m) : x ∈ alKeys (alInsert m k v) := by
  induction m with
  | nil => simp [alKeys] at h
  | cons p rest ih =>
    rw [alKeys_cons, List.mem_cons] at h
    by_cases hp : p.1 = k
    · simp only [alInsert, hp, ite_true, alKeys_cons, List.mem_cons]
      rcases h with h | h
      · left; rw [h, ← hp]
      · right; exact h
    · simp only [alInsert, hp, ite_false, alKeys_cons, List.mem_cons]
      rcases h with h | h
      · left; exact h
      · right; exact ih h

theorem mem_keys_alDelete_of_ne {α : Type} {m : List (String × α)} {x : String}
    (k : String) (hne : x ≠ k) (h : x ∈ alKeys m) : x ∈ alKeys (alDelete m k) := by
  induction m with
  | nil => simp [alKeys] at h
  | cons p rest ih =>
    rw [alKeys_cons, List.mem_cons] at h
    rcases h with h | h
    · have hp : p.1 ≠ k := by rw [← h]; exact hne
      simp [alDelete, List.filter_cons, hp, alKeys_cons, h]
    · have hrest := ih h
      by_cases hp : p.1 = k
      · simpa [alDelete, List.filter_cons, hp] using hrest
      · simp [alDelete, List.filter_cons, hp, alKeys_cons]
        right
        simpa [alDelete] using hrest

/-! Helper lemmas about the lexicographic sort. -/

theorem listCharLe_total (a b : List Char) :
    listCharLe a b = true ∨ listCharLe b a = true := by
  induction a generalizing b with
  | nil => left; simp [listCharLe]
  | cons c cs ih =>
    cases b with
    | nil => right; simp [listCharLe]
    | cons d ds =>
      rcases Nat.lt_trichotomy c.toNat d.toNat with h | h | h
      · left; simp [listCharLe, h]
      · rcases ih ds with hd | hd
        · left; simp [listCharLe, h, hd]
        · right; simp [listCharLe, h.symm, hd]
      · right; simp [listCharLe, h]

theorem listCharLe_cons_iff {x y : Char} {xs ys : List Char} :
    listCharLe (x :: xs) (y :: ys) = true ↔
      x.toNat < y.toNat ∨ (x.toNat = y.toNat ∧ listCharLe xs ys = true) := by
  simp only [listCharLe]
  split_ifs with h1 h2
  · simp [h1]
  · simp only [Bool.false_eq_true, false_iff]
    rintro (h | ⟨h, -⟩) <;> omega
  · have he : x.toNat = y.toNat := by omega
    simp [he, h1]

theorem listCharLe_trans {a b c : List Char} (hab : listCharLe a b = true)
    (hbc : listCharLe b c = true) : listCharLe a c = true := by
  induction a generalizing b c with
  | nil => simp [listCharLe]
  | cons x xs ih =>
    cases b with
    | nil => simp [listCharLe] at hab
    | cons y ys =>
      cases c with
      | nil => simp [listCharLe] at hbc
      | cons z zs =>
        rw [listCharLe_cons_iff] at hab hbc ⊢
        rcases hab with hab | ⟨hab, hab2⟩
        · rcases hbc with hbc | ⟨hbc, -⟩
          · left; omega
          · left; omega
        · rcases hbc with hbc | ⟨hbc, hbc2⟩
          · left; omega
          · right
            exact ⟨by omega, ih hab2 hbc2⟩

theorem strLe_total (a b : String) : strLe a b = true ∨ strLe b a = true :=
  listCharLe_total a.data b.data

theorem strLe_trans {a b c : String} (hab : strLe a b = true)
    (hbc : strLe b c = true) : strLe a c = true :=
  listCharLe_trans hab hbc

theorem mem_insertStr {z x : String} {l : List String} :
    z ∈ insertStr x l ↔ z = x ∨ z ∈ l := by
  induction l with
  | nil => simp [insertStr]
  | cons y ys ih =>
    by_cases h : strLe x y = true
    · simp [insertStr, h]
    · simp [insertStr, h, ih]
      tauto

theorem insertStr_perm (x : String) (l : List String) :
    (insertStr x l).Perm (x :: l) := by
  induction l with
  | nil => simp [insertStr]
  | cons y ys ih =>
    by_cases h : strLe x y = true
    · simp [insertStr, h]
    · have hrw : insertStr x (y :: ys) = y :: insertStr x ys := by
        simp [insertStr, h]
      rw [hrw]
      exact (ih.cons y).trans (List.Perm.swap x y ys)

theorem sortStrings_perm (l : List String) : (sortStrings l).Perm l := by
  induction l with
  | nil => simp [sortStrings]
  | cons x xs ih =>
    exact (insertStr_perm x (sortStrings xs)).trans (ih.cons x)

theorem pairwise_insertStr {x : String} {l : List String}
    (h : List.Pairwise (fun a b => strLe a b = true) l) :
    List.Pairwise (fun a b => strLe a b = true) (insertStr x l) := by
  induction l with
  | nil => simp [insertStr]
  | cons y ys ih =>
    rcases List.pairwise_cons.mp h with ⟨hy, hys⟩
    by_cases hxy : strLe x y = true
    · have hrw : insertStr x (y :: ys) = x :: y :: ys := by simp [insertStr, hxy]
      rw [hrw]
      refine List.pairwise_cons.mpr ⟨?_, h⟩
      intro z hz
      rcases List.mem_cons.mp hz with hz | hz
      · rw [hz]; exact hxy
      · exact strLe_trans hxy (hy z hz)
    · have hrw : insertStr x (y :: ys) = y :: insertStr x ys := by
        simp [insertStr, hxy]
      rw [hrw]
      refine List.pairwise_cons.mpr ⟨?_, ih hys⟩
      intro z hz
      rcases mem_insertStr.mp hz with hz | hz
      · rw [hz]
        rcases strLe_total x y with ht | ht
        · exact absurd ht hxy
        · exact ht
      · exact hy z hz

theorem sortStrings_sorted (l : List String) :
    List.Pairwise (fun a b => strLe a b = true) (sortStrings l) := by
  induction l with
  | nil => simp [sortStrings]
  | cons x xs ih => exact pairwise_insertStr ih

/-! Concrete templates and environments used by the scenario theorems,
witnesses and counterexamples below. -/

/-- An environment with no callbacks and empty state. -/
def envEmpty : Env :=
  { resolvedReferences := [], fillers := [], defLookupFunc := none,
    aliasFunc := none, missingHolesFunc := none, processedFillers := [] }

/-- The definition oracle of scenario S3: `create subnet` requires `cidr`. -/
def lookupS3 : String → Option TemplateDefinition := fun k =>
  if k = "createsubnet" then some { required := ["cidr"], extra := [] } else none

/-- The environment of scenario S3. -/
def envS3 : Env := { envEmpty with defLookupFunc := some lookupS3 }

/-- The template of scenario S3: `myvpc = 10.0.0.0/16` then
`create subnet cidr=$myvpc`. -/
def tplS3 : Template :=
  { id := "",
    statements :=
      [⟨0, .declNode "myvpc" (.valExpr { value := .vstr "10.0.0.0/16", hole := "" })⟩,
       ⟨1, .cmdNode { action := "create", entity := "subnet", params := [],
                      refs := [("cidr", "myvpc")], holes := [] }⟩] }

/-- The command of scenario S3 after a full normal compile. -/
def cmdS3After : CommandNode :=
  { action := "create", entity := "subnet",
    params := [("cidr", .vstr "10.0.0.0/16")], refs := [], holes := [] }

/-- C2: for the two-statement script `myvpc = 10.0.0.0/16` followed by
`create subnet cidr=$myvpc`, a full normal-mode compile drops the
assignment, leaves the command with `params = {cidr: "10.0.0.0/16"}` and an
empty refs map, and sets `resolvedReferences = {myvpc: "10.0.0.0/16"}`. -/
theorem c2_reference_propagation :
    Compile tplS3 envS3 none =
      .ret { id := "", statements := [⟨1, .cmdNode cmdS3After⟩] }
        { envS3 with resolvedReferences := [("myvpc", .vstr "10.0.0.0/16")] }
        none := rfl

/-- The action node of the C7 failing input: an alias value inside an
action node's composite params. -/
def actC7 : ActionNode :=
  { action := "attach", entity := "policy",
    params := [("name", .aliasValue "admins" .vnull)] }

/-- The template of the C7 failing input. -/
def tplC7 : Template := { id := "", statements := [⟨0, .actionNode actC7⟩] }

/-- C7: the claim states that with a nil alias resolver the
resolve-aliases pass never crashes, for aliases in command params and for
alias values inside action-node params alike. The command-params branch
does check for a nil resolver, but the action-node branch builds a closure
that calls `env.AliasFunc` unguarded, so an alias value inside an action
node dereferences the nil function and the Go runtime crashes. This
theorem evaluates the pass at the failing input. -/
theorem c7_nil_resolver_crashes_on_action_alias :
    resolveAliasPass tplC7 envEmpty = .crashed := rfl

/-- C10: with a nil definition-lookup function, any compile whose pass
list starts with `resolveAgainstDefinitions` — in particular the default,
lenient and normal modes — fails immediately with
`definition lookup function is undefined`, returning the input template
and environment unchanged. -/
theorem c10_nil_lookup_fails_first (tpl : Template) (env : Env)
    (rest : List CompileFunc) (h : env.defLookupFunc = none) :
    runPasses (resolveAgainstDefinitions :: rest) tpl env =
      .ret tpl env (some "definition lookup function is undefined")
    ∧ Compile tpl env none =
      .ret tpl env (some "definition lookup function is undefined")
    ∧ Compile tpl env (some LenientCompileMode) =
      .ret tpl env (some "definition lookup function is undefined")
    ∧ Compile tpl env (some NormalCompileMode) =
      .ret tpl env (some "definition lookup function is undefined") := by
  have hr : resolveAgainstDefinitions tpl env =
      .ret tpl env (some "definition lookup function is undefined") := by
    unfold resolveAgainstDefinitions
    rw [h]
  refine ⟨?_, ?_, ?_, ?_⟩ <;>
    simp [runPasses, hr, Compile, NormalCompileMode, LenientCompileMode]

/-- Witness for C10: a concrete compile with a nil lookup function. -/
theorem c10_nil_lookup_fails_first_witness :
    Compile tplS3 envEmpty none =
      .ret tplS3 envEmpty (some "definition lookup function is undefined") :=
  (c10_nil_lookup_fails_first tplS3 envEmpty [] rfl).2.1

/-- The command of scenario S4: `attach policy name=@admins`. -/
def cmdS4 : CommandNode :=
  { action := "attach", entity := "policy",
    params := [("name", .vstr "@admins")], refs := [], holes := [] }

/-- The template of scenario S4. -/
def tplS4 : Template := { id := "", statements := [⟨0, .cmdNode cmdS4⟩] }

/-- The environment of scenario S4: the alias resolver answers the empty
string for every alias. -/
def envS4 : Env := { envEmpty with aliasFunc := some (fun _ _ _ => "") }

/-- C8: whenever the alias scan ends with a non-empty list of aliases the
resolver answered with the empty string, `resolveAliasPass` fails with the
message enumerating exactly that list (Go `%q`) and suggesting
`awless sync`. -/
theorem c8_alias_error_message (tpl : Template) (env : Env) (t : Template)
    (es : List String) (h : resolveAliasScan tpl env = some (t, es))
    (hne : es ≠ []) :
    resolveAliasPass tpl env =
      .ret t env (some ("cannot resolve aliases: " ++ goQuotedSliceFmt es
        ++ ". Maybe you need to update your local model with `awless sync` ?")) := by
  unfold resolveAliasPass
  rw [h]
  cases es with
  | nil => exact absurd rfl hne
  | cons e es' => rfl

/-- Witness for C8, scenario S4: the pass fails with exactly the
claimed message. -/
theorem c8_alias_error_message_witness :
    resolveAliasPass tplS4 envS4 =
      .ret tplS4 envS4 (some "cannot resolve aliases: [\"admins\"]. Maybe you need to update your local model with `awless sync` ?") :=
  c8_alias_error_message tplS4 envS4 tplS4 ["admins"] rfl (by simp)

/-- Counterexample for C6: the claim says that after `ResolveAlias`
assigns a value to an alias, `GetAliases` returns the empty list; but
`aliasValue.GetAliases` unconditionally returns the alias name, so the
resolved alias still reports it. -/
theorem c6_counterexample :
    resolveAlias (fun _ => "AIDEXAMPLE") (.aliasValue "admins" .vnull) =
      .aliasValue "admins" (.vstr "AIDEXAMPLE")
    ∧ getAliases (.aliasValue "admins" (.vstr "AIDEXAMPLE")) = ["admins"]
    ∧ (["admins"] : List String) ≠ [] := by
  refine ⟨rfl, rfl, by simp⟩

/-- C6 (amended): a filled Hole reports no unresolved hole name, but the
introspections of References and Aliases are unconditional — `GetRefs` of a
filled reference still reports its name, and `GetAliases` after
`ResolveAlias` still returns the singleton alias name. -/
theorem c6_amended_filled_introspection :
    (∀ (h : String) (v : GoValue), v ≠ .vnull → getHoles (.holeValue h v) = [])
    ∧ (∀ (a : String) (f : String → String) (v : GoValue),
        getAliases (resolveAlias f (.aliasValue a v)) = [a])
    ∧ (∀ (r : String) (v : GoValue), getRefs (.referenceValue r v) = [r]) := by
  refine ⟨?_, ?_, ?_⟩
  · intro h v hv
    simp [getHoles, hv]
  · intro a f v
    simp [resolveAlias, getAliases]
  · intro r v
    simp [getRefs]

/-- Witness for C6 (amended), at concrete filled values. -/
theorem c6_amended_filled_introspection_witness :
    getHoles (.holeValue "myhole" (.vstr "my-value")) = []
    ∧ getAliases (resolveAlias (fun _ => "AIDEXAMPLE") (.aliasValue "admins" .vnull)) = ["admins"]
    ∧ getRefs (.referenceValue "myref" (.vstr "vpc-1")) = ["myref"] :=
  ⟨c6_amended_filled_introspection.1 "myhole" (.vstr "my-value") (by simp),
   c6_amended_filled_introspection.2.1 "admins" (fun _ => "AIDEXAMPLE") .vnull,
   c6_amended_filled_introspection.2.2 "myref" (.vstr "vpc-1")⟩

/-- Counterexample for C4: the claim says `fillHoles(m)` removes
`keys(m)` from the unresolved-hole set "also when m maps a hole name to
null" — but a hole filled with the nil interface value keeps `val == nil`
and is still reported by `GetHoles`, so the hole set is `["h"]`, not the
claimed `holes \ keys(m) = []`. -/
theorem c4_counterexample :
    getHoles (processHoles (.holeValue "h" .vnull) [("h", GoValue.vnull)]).1 = ["h"]
    ∧ getHoles (.holeValue "h" .vnull) = ["h"]
    ∧ "h" ∈ alKeys [("h", GoValue.vnull)] := by
  refine ⟨rfl, rfl, by simp [alKeys]⟩

mutual
/-- Hole accounting for one composite value: with fillers whose values are
all non-nil, the unresolved holes after `ProcessHoles` are exactly those
before minus the filler keys. -/
theorem processHoles_mem_getHoles (fills : List (String × GoValue))
    (hnn : ∀ p ∈ fills, p.2 ≠ GoValue.vnull) :
    ∀ (v : CompositeValue) (n : String),
      n ∈ getHoles (processHoles v fills).1 ↔ (n ∈ getHoles v ∧ n ∉ alKeys fills)
  | .interfaceValue val, n => by simp [getHoles, processHoles]
  | .aliasValue a val, n => by simp [getHoles, processHoles]
  | .referenceValue r val, n => by simp [getHoles, processHoles]
  | .holeValue h val, n => by
    cases halGet : alGet fills h with
    | none =>
      have hk := not_mem_keys_of_alGet_eq_none halGet
      simp only [processHoles, halGet]
      constructor
      · intro hmem
        refine ⟨hmem, ?_⟩
        simp only [getHoles] at hmem
        split at hmem
        · simp at hmem
          rw [hmem]
          exact hk
        · simp at hmem
      · intro hmem
        exact hmem.1
    | some fill =>
      have hfill : fill ≠ GoValue.vnull := hnn (h, fill) (mem_of_alGet_eq_some halGet)
      have hk := mem_keys_of_alGet_eq_some halGet
      simp only [processHoles, halGet, getHoles, hfill, if_neg, ite_false]
      constructor
      · intro hmem
        simp at hmem
      · intro hmem
        rcases hmem with ⟨hmem, hnk⟩
        split at hmem
        · simp at hmem
          rw [hmem] at hnk
          exact absurd hk hnk
        · simp at hmem
  | .listValue vs, n => by
    simp only [getHoles, processHoles]
    exact processHolesL_mem_getHolesL fills hnn vs n

/-- Hole accounting over the children of a `listValue`. -/
theorem processHolesL_mem_getHolesL (fills : List (String × GoValue))
    (hnn : ∀ p ∈ fills, p.2 ≠ GoValue.vnull) :
    ∀ (vs : CompositeValueList) (n : String),
      n ∈ getHolesL (processHolesL vs fills).1 ↔ (n ∈ getHolesL vs ∧ n ∉ alKeys fills)
  | .nil, n => by simp [getHolesL, processHolesL]
  | .cons v vs, n => by
    have ihv := processHoles_mem_getHoles fills hnn v n
    have ihvs := processHolesL_mem_getHolesL fills hnn vs n
    simp only [processHolesL, getHolesL, List.mem_append] at ihv ihvs ⊢
    rw [ihv, ihvs]
    tauto
end

/-- C4 (amended): for every Value and every filler map whose values are
all non-null, after `fillHoles(m)` the set of unresolved hole names is the
previous set minus `keys(m)`. (With a null filler value the hole is
consumed but remains unresolved, as the counterexample shows, so the
"also when m maps a hole name to null" part of the claim fails.) -/
theorem c4_amended_fill_holes (v : CompositeValue)
    (fills : List (String × GoValue))
    (hnn : ∀ p ∈ fills, p.2 ≠ GoValue.vnull) (n : String) :
    n ∈ getHoles (processHoles v fills).1 ↔ (n ∈ getHoles v ∧ n ∉ alKeys fills) :=
  processHoles_mem_getHoles fills hnn v n

/-- Witness for C4 (amended): a list with holes `a` and `b`, filling `a`
with a non-null value, leaves exactly hole `b`. -/
theorem c4_amended_fill_holes_witness :
    ("b" ∈ getHoles (processHoles
        (.listValue (.cons (.holeValue "a" .vnull) (.cons (.holeValue "b" .vnull) .nil)))
        [("a", .vstr "ami-42")]).1
      ↔ ("b" ∈ getHoles
          (.listValue (.cons (.holeValue "a" .vnull) (.cons (.holeValue "b" .vnull) .nil)))
        ∧ "b" ∉ alKeys [("a", GoValue.vstr "ami-42")]))
    ∧ getHoles (processHoles
        (.listValue (.cons (.holeValue "a" .vnull) (.cons (.holeValue "b" .vnull) .nil)))
        [("a", .vstr "ami-42")]).1 = ["b"] :=
  ⟨c4_amended_fill_holes
      (.listValue (.cons (.holeValue "a" .vnull) (.cons (.holeValue "b" .vnull) .nil)))
      [("a", .vstr "ami-42")] (by simp) "b",
   by decide⟩

/-- C5: the distinct still-unresolved hole names of the template are
collected as a set, sorted lexicographically, and the missing-holes
callback is invoked exactly once per name in that sorted order: the call
sequence is lexicographically sorted, has no duplicates, and contains
exactly the unresolved hole names of the template. -/
theorem c5_missing_holes_call_order (tpl : Template) (env : Env)
    (f : String → GoValue) (hf : env.missingHolesFunc = some f) :
    missingHolesCallSequence tpl env = sortedMissingHoles tpl
    ∧ List.Pairwise (fun a b => strLe a b = true) (missingHolesCallSequence tpl env)
    ∧ (missingHolesCallSequence tpl env).Nodup
    ∧ (∀ n, n ∈ missingHolesCallSequence tpl env ↔ n ∈ templateHoles tpl) := by
  have h1 : missingHolesCallSequence tpl env = sortedMissingHoles tpl := by
    unfold missingHolesCallSequence
    rw [hf]
  have hperm : (sortedMissingHoles tpl).Perm (templateHoles tpl).dedup := by
    unfold sortedMissingHoles
    exact sortStrings_perm _
  refine ⟨h1, ?_, ?_, ?_⟩
  · rw [h1]
    unfold sortedMissingHoles
    exact sortStrings_sorted _
  · rw [h1]
    exact hperm.nodup_iff.mpr (List.nodup_dedup _)
  · intro n
    rw [h1, hperm.mem_iff, List.mem_dedup]

/-- The command of scenario S6, carrying holes `b`, `a`, `c` in source
order. -/
def cmdS6 : CommandNode :=
  { action := "create", entity := "instance", params := [], refs := [],
    holes := [("kb", "b"), ("ka", "a"), ("kc", "c")] }

/-- The template of scenario S6: holes `b`, `a`, `c` in source order. -/
def tplS6 : Template :=
  { id := "", statements := [⟨0, .cmdNode cmdS6⟩] }

/-- The environment of scenario S6: a missing-holes callback is present. -/
def envS6 : Env := { envEmpty with missingHolesFunc := some (fun _ => .vnull) }

/-- Witness for C5, scenario S6: for holes `b`, `a`, `c` the callback is
invoked in the order `a`, `b`, `c`. -/
theorem c5_missing_holes_call_order_witness :
    missingHolesCallSequence tplS6 envS6 = ["a", "b", "c"]
    ∧ (∀ n, n ∈ missingHolesCallSequence tplS6 envS6 ↔ n ∈ templateHoles tplS6) :=
  ⟨by decide,
   (c5_missing_holes_call_order tplS6 envS6 (fun _ => .vnull) rfl).2.2.2⟩

/-- No statement node of the first template is the same mutable Go object
as a statement node of the second (their pointer identities are disjoint)
— what "a deep copy that does not alias the original" asserts. -/
def sharesNoStatement (t1 t2 : Template) : Prop :=
  ∀ s ∈ stmtIds t1, s ∉ stmtIds t2

/-- A resolved value assignment followed by a command, the input of the
C9 theorems. -/
def tplC9 : Template :=
  { id := "tpl-9",
    statements :=
      [⟨0, .declNode "x" (.valExpr { value := .vstr "1", hole := "" })⟩,
       ⟨1, .cmdNode { action := "create", entity := "vpc",
                      params := [("cidr", .vstr "10.0.0.0/16")], refs := [], holes := [] }⟩] }

/-- The template returned by `removeValueStatementsPass` on `tplC9`: the
assignment is dropped and the command statement object is kept. -/
def tplC9out : Template :=
  { id := "tpl-9",
    statements :=
      [⟨1, .cmdNode { action := "create", entity := "vpc",
                      params := [("cidr", .vstr "10.0.0.0/16")], refs := [], holes := [] }⟩] }

/-- Counterexample for C9: the pass drops the resolved assignment, but the
returned template holds the input's own command statement (same pointer
identity `1`), so it is not a deep copy — mutating that statement through
the returned template is visible through the input template. -/
theorem c9_counterexample :
    removeValueStatementsPass tplC9 envEmpty = .ret tplC9out envEmpty none
    ∧ ¬ sharesNoStatement tplC9out tplC9 :=
  ⟨rfl, fun h => h 1 (by decide) (by decide)⟩

/-- C9 (amended): `removeValueStatementsPass` returns, with no error and
an untouched environment, a template with the same ID whose statement list
is a fresh sublist of the input's list: exactly the statements that are
not resolved-value assignments are kept, and every kept statement is the
input's own statement node (shared, not copied). -/
theorem c9_amended_remove_value_statements (tpl : Template) (env : Env)
    (t : Template) (e : Env) (err : Option String)
    (h : removeValueStatementsPass tpl env = .ret t e err) :
    err = none ∧ e = env ∧ t.id = tpl.id
    ∧ List.Sublist t.statements tpl.statements
    ∧ (∀ st ∈ tpl.statements, (st ∈ t.statements ↔ isResolvedValueDecl st.node = false))
    ∧ (∀ st ∈ t.statements, st ∈ tpl.statements) := by
  unfold removeValueStatementsPass at h
  injection h with ht he herr
  subst ht
  subst he
  subst herr
  refine ⟨rfl, rfl, rfl, List.filter_sublist _, ?_, ?_⟩
  · intro st hst
    simp [List.mem_filter, hst]
  · intro st hst
    exact (List.mem_filter.mp hst).1

/-- Witness for C9 (amended), at the concrete input `tplC9`. -/
theorem c9_amended_remove_value_statements_witness :
    List.Sublist tplC9out.statements tplC9.statements
    ∧ (∀ st ∈ tplC9.statements,
        (st ∈ tplC9out.statements ↔ isResolvedValueDecl st.node = false)) := by
  have h := c9_amended_remove_value_statements tplC9 envEmpty tplC9out envEmpty none rfl
  exact ⟨h.2.2.2.1, h.2.2.2.2.1⟩

/-! Lemmas about the hole normalisation of `resolveAgainstDefinitions`,
leading to the C1 theorems. -/

theorem normalizeRequiredKey_fields (c : CommandNode) (r : String) :
    (normalizeRequiredKey c r).action = c.action
    ∧ (normalizeRequiredKey c r).entity = c.entity
    ∧ (normalizeRequiredKey c r).params = c.params
    ∧ (normalizeRequiredKey c r).refs = c.refs := by
  simp only [normalizeRequiredKey]
  split_ifs <;> exact ⟨rfl, rfl, rfl, rfl⟩

theorem foldl_normalize_fields (req : List String) (c : CommandNode) :
    ((req.foldl normalizeRequiredKey c).action = c.action)
    ∧ ((req.foldl normalizeRequiredKey c).entity = c.entity)
    ∧ ((req.foldl normalizeRequiredKey c).params = c.params)
    ∧ ((req.foldl normalizeRequiredKey c).refs = c.refs) := by
  induction req generalizing c with
  | nil => exact ⟨rfl, rfl, rfl, rfl⟩
  | cons x xs ih =>
    have hx := normalizeRequiredKey_fields c x
    have hxs := ih (normalizeRequiredKey c x)
    rw [List.foldl_cons]
    exact ⟨hxs.1.trans hx.1, hxs.2.1.trans hx.2.1,
      hxs.2.2.1.trans hx.2.2.1, hxs.2.2.2.trans hx.2.2.2⟩

theorem dot_mem_normalized (a x : String) : ('.' : Char) ∈ (a ++ "." ++ x).data := by
  rw [String.data_append, String.data_append]
  have hd : (".").data = ['.'] := rfl
  rw [hd]
  simp

theorem holes_key_mem_normalizeRequiredKey {c : CommandNode} {r : String}
    (x : String) (hdotfree : ('.' : Char) ∉ r.data) (hmem : r ∈ alKeys c.holes) :
    r ∈ alKeys (normalizeRequiredKey c x).holes := by
  simp only [normalizeRequiredKey]
  split_ifs with h1 h2
  · refine mem_keys_alDelete_of_ne _ ?_ hmem
    intro heq
    apply hdotfree
    rw [heq]
    exact dot_mem_normalized c.entity x
  · exact hmem
  · exact mem_keys_alInsert_of_mem _ _ hmem

theorem holes_key_mem_foldl_normalize {r : String} (req : List String)
    (c : CommandNode) (hdotfree : ('.' : Char) ∉ r.data)
    (hmem : r ∈ alKeys c.holes) :
    r ∈ alKeys ((req.foldl normalizeRequiredKey c)).holes := by
  induction req generalizing c with
  | nil => exact hmem
  | cons x xs ih =>
    rw [List.foldl_cons]
    exact ih _ (holes_key_mem_normalizeRequiredKey x hdotfree hmem)

theorem required_covered_foldl_normalize (req : List String) (c : CommandNode)
    (hdot : ∀ x ∈ req, ('.' : Char) ∉ x.data) :
    ∀ r ∈ req,
      r ∈ alKeys ((req.foldl normalizeRequiredKey c)).params
      ∨ r ∈ alKeys ((req.foldl normalizeRequiredKey c)).refs
      ∨ r ∈ alKeys ((req.foldl normalizeRequiredKey c)).holes := by
  induction req generalizing c with
  | nil => intro r hr; simp at hr
  | cons x xs ih =>
    intro r hr
    rcases List.mem_cons.mp hr with hr | hr
    · subst hr
      rw [List.foldl_cons]
      have hfields := foldl_normalize_fields xs (normalizeRequiredKey c r)
      have hstep := normalizeRequiredKey_fields c r
      by_cases hpr : ((alKeys c.params).contains r || (alKeys c.refs).contains r) = true
      · rcases Bool.or_eq_true_iff.mp hpr with hp | hp
        · left
          rw [hfields.2.2.1, hstep.2.2.1]
          exact List.elem_iff.mp hp
        · right; left
          rw [hfields.2.2.2, hstep.2.2.2]
          exact List.elem_iff.mp hp
      · right; right
        have hinstep : r ∈ alKeys (normalizeRequiredKey c r).holes := by
          simp only [normalizeRequiredKey]
          rw [if_neg hpr]
          by_cases hg : (alGet c.holes r).isSome = true
          · rw [if_pos hg]
            exact (alGet_isSome_iff_mem_keys _ _).mp hg
          · rw [if_neg hg]
            exact mem_keys_alInsert_self _ _ _
        exact holes_key_mem_foldl_normalize xs _
          (hdot r (List.mem_cons_self _ _)) hinstep
    · exact ih (normalizeRequiredKey c x)
        (fun y hy => hdot y (List.mem_cons_of_mem _ hy)) r hr

theorem templateCommands_map (tpl : Template) (f : CommandNode → CommandNode) :
    templateCommands (mapCommandNodes tpl f) = (templateCommands tpl).map f := by
  unfold templateCommands mapCommandNodes
  cases tpl with
  | mk tid stmts =>
    simp only
    induction stmts with
    | nil => rfl
    | cons st rest ih =>
      cases st with
      | mk sid node =>
        cases node with
        | cmdNode c => simpa [commandOfNode] using ih
        | declNode ident expr =>
          cases expr with
          | cmdExpr c => simpa [commandOfNode] using ih
          | valExpr v => simpa [commandOfNode] using ih
        | actionNode a => simpa [commandOfNode] using ih

theorem normalizeCommand_eq_foldl (lookup : String → Option TemplateDefinition)
    (c : CommandNode) (d : TemplateDefinition)
    (hd : lookup (c.action ++ c.entity) = some d) :
    normalizeCommand lookup c = d.required.foldl normalizeRequiredKey c := by
  unfold normalizeCommand
  rw [hd]

theorem resolveAgainstDefinitions_of_some (tpl : Template) (env : Env)
    (lookup : String → Option TemplateDefinition)
    (hl : env.defLookupFunc = some lookup) :
    resolveAgainstDefinitions tpl env =
      match firstCommandError tpl (checkCommandKeys lookup) with
      | some e => .ret tpl env (some e)
      | none => .ret (mapCommandNodes tpl (normalizeCommand lookup)) env none := by
  unfold resolveAgainstDefinitions
  rw [hl]

/-- Counterexample input for C1: `create instance` with required key
`image` satisfied by a pre-existing hole at key `image` whose hole name is
the raw source token `myimage`. -/
def cmdC1 : CommandNode :=
  { action := "create", entity := "instance", params := [], refs := [],
    holes := [("image", "myimage")] }

/-- The C1 counterexample template. -/
def tplC1 : Template := { id := "", statements := [⟨0, .cmdNode cmdC1⟩] }

/-- The definition oracle of the C1 counterexample. -/
def lookupC1 : String → Option TemplateDefinition := fun k =>
  if k = "createinstance" then some { required := ["image"], extra := [] } else none

/-- The environment of the C1 counterexample. -/
def envC1 : Env := { envEmpty with defLookupFunc := some lookupC1 }

/-- Counterexample for C1: the pass succeeds and leaves the command
unchanged, yet the required key `image` is in none of `keys(params)`,
`keys(refs)` and `values(holes)` — the hole at key `image` keeps its raw
hole name `myimage`, so required keys land in `keys(holes)`, not
`values(holes)` as the claim states. -/
theorem c1_counterexample :
    resolveAgainstDefinitions tplC1 envC1 = .ret tplC1 envC1 none
    ∧ lookupC1 (cmdC1.action ++ cmdC1.entity) =
        some { required := ["image"], extra := [] }
    ∧ "image" ∈ ({ required := ["image"], extra := [] } : TemplateDefinition).required
    ∧ ¬("image" ∈ alKeys cmdC1.params ∨ "image" ∈ alKeys cmdC1.refs
        ∨ "image" ∈ alValues cmdC1.holes) := by
  refine ⟨rfl, rfl, by simp, by decide⟩

/-- C1 (amended): after the resolve-against-definitions pass succeeds, for
every command of the resulting template and every required key `r` of its
definition that contains no dot, `r` is a member of
`keys(params) ∪ keys(refs) ∪ keys(holes)`. (The original claim said
`values(holes)`; the pass normalises required keys into the *keys* of the
holes map, whose values are the dotted `entity.key` names or raw source
tokens, and required keys that may collide with dotted normalised names
can even be deleted by a later iteration.) -/
theorem c1_amended_required_keys (tpl : Template) (env : Env) (tpl' : Template)
    (lookup : String → Option TemplateDefinition)
    (hl : env.defLookupFunc = some lookup)
    (h : resolveAgainstDefinitions tpl env = .ret tpl' env none)
    (cmd : CommandNode) (hcmd : cmd ∈ templateCommands tpl')
    (d : TemplateDefinition) (hd : lookup (cmd.action ++ cmd.entity) = some d)
    (hdot : ∀ x ∈ d.required, ('.' : Char) ∉ x.data) :
    ∀ r ∈ d.required,
      r ∈ alKeys cmd.params ∨ r ∈ alKeys cmd.refs ∨ r ∈ alKeys cmd.holes := by
  rw [resolveAgainstDefinitions_of_some tpl env lookup hl] at h
  cases hfe : firstCommandError tpl (checkCommandKeys lookup) with
  | some e =>
    simp only [hfe] at h
    injection h with _ _ herr
    exact absurd herr (Option.some_ne_none e)
  | none =>
    simp only [hfe] at h
    injection h with ht _ _
    subst ht
    rw [templateCommands_map] at hcmd
    rcases List.mem_map.mp hcmd with ⟨c0, hc0, hc0eq⟩
    subst hc0eq
    have hfields := foldl_normalize_fields
      (match lookup (c0.action ++ c0.entity) with
        | some d => d.required
        | none => []) c0
    have hkey : (normalizeCommand lookup c0).action ++ (normalizeCommand lookup c0).entity
        = c0.action ++ c0.entity := by
      unfold normalizeCommand
      rw [hfields.1, hfields.2.1]
    rw [hkey] at hd
    rw [normalizeCommand_eq_foldl lookup c0 d hd]
    exact required_covered_foldl_normalize d.required c0 hdot

/-- Witness for C1 (amended): on the counterexample input the required key
`image` is found among the keys of the holes map. -/
theorem c1_amended_required_keys_witness :
    "image" ∈ alKeys cmdC1.params ∨ "image" ∈ alKeys cmdC1.refs
      ∨ "image" ∈ alKeys cmdC1.holes :=
  c1_amended_required_keys tplC1 envC1 tplC1 lookupC1 rfl rfl cmdC1 (by decide)
    { required := ["image"], extra := [] } rfl (by decide) "image" (by decide)

/-! Index-based specification of the reference check, and the C3
theorems. -/

/-- The identifiers assigned by the declaration statements of a list, in
document order. -/
def declIdents (stmts : List Statement) : List String :=
  stmts.filterMap (fun st => declIdentOfNode st.node)

/-- The identifier assigned by one statement: a singleton for a
declaration, empty otherwise. -/
def headIds (st : Statement) : List String :=
  match declIdentOfNode st.node with
  | some ident => [ident]
  | none => []

/-- The command carried by the i-th statement, if any. -/
def cmdAt (stmts : List Statement) (i : Nat) : Option CommandNode :=
  stmts[i]?.bind (fun st => commandOfNode st.node)

/-- The identifier declared by the i-th statement, if any. -/
def declIdentAt (stmts : List Statement) (i : Nat) : Option String :=
  stmts[i]?.bind (fun st => declIdentOfNode st.node)

/-- Some command uses a reference not assigned by an earlier statement. -/
def UndefViolation (stmts : List Statement) : Prop :=
  ∃ i c r, cmdAt stmts i = some c ∧ r ∈ alValues c.refs
    ∧ r ∉ declIdents (stmts.take i)

/-- Some declaration reuses an identifier assigned by an earlier
statement. -/
def DupViolation (stmts : List Statement) : Prop :=
  ∃ i r, declIdentAt stmts i = some r ∧ r ∈ declIdents (stmts.take i)

/-- Every command's references are known: assigned earlier or in the
initial `known` prefix. -/
def RefsChecked (stmts : List Statement) (known : List String) : Prop :=
  ∀ i c r, cmdAt stmts i = some c → r ∈ alValues c.refs →
    r ∈ known ++ declIdents (stmts.take i)

/-- Every declared identifier is fresh: not in the initial `known` prefix
and not assigned earlier. -/
def DeclsFresh (stmts : List Statement) (known : List String) : Prop :=
  ∀ i r, declIdentAt stmts i = some r → r ∉ known ++ declIdents (stmts.take i)

theorem declIdents_cons (st : Statement) (rest : List Statement) :
    declIdents (st :: rest) = headIds st ++ declIdents rest := by
  unfold declIdents headIds
  rw [List.filterMap_cons]
  cases declIdentOfNode st.node <;> simp

theorem refsChecked_cons (st : Statement) (rest : List Statement)
    (known : List String) :
    RefsChecked (st :: rest) known ↔
      ((∀ c, commandOfNode st.node = some c → ∀ r ∈ alValues c.refs, r ∈ known)
       ∧ RefsChecked rest (known ++ headIds st)) := by
  constructor
  · intro H
    constructor
    · intro c hc r hr
      have := H 0 c r (by simp [cmdAt, hc]) hr
      simpa [declIdents] using this
    · intro i c r hc hr
      have := H (i + 1) c r (by simpa [cmdAt] using hc) hr
      rw [List.take_succ_cons, declIdents_cons, ← List.append_assoc] at this
      exact this
  · rintro ⟨h0, hrest⟩ i c r hc hr
    cases i with
    | zero =>
      simp [declIdents]
      exact h0 c (by simpa [cmdAt] using hc) r hr
    | succ i =>
      rw [List.take_succ_cons, declIdents_cons, ← List.append_assoc]
      exact hrest i c r (by simpa [cmdAt] using hc) hr

theorem declsFresh_cons (st : Statement) (rest : List Statement)
    (known : List String) :
    DeclsFresh (st :: rest) known ↔
      ((∀ ident, declIdentOfNode st.node = some ident → ident ∉ known)
       ∧ DeclsFresh rest (known ++ headIds st)) := by
  constructor
  · intro H
    constructor
    · intro ident hid hmem
      have := H 0 ident (by simp [declIdentAt, hid])
      simp [declIdents] at this
      exact this hmem
    · intro i r hid hmem
      have := H (i + 1) r (by simpa [declIdentAt] using hid)
      rw [List.take_succ_cons, declIdents_cons, ← List.append_assoc] at this
      exact this hmem
  · rintro ⟨h0, hrest⟩ i r hid hmem
    cases i with
    | zero =>
      simp [declIdents] at hmem
      exact h0 r (by simpa [declIdentAt] using hid) hmem
    | succ i =>
      rw [List.take_succ_cons, declIdents_cons, ← List.append_assoc] at hmem
      exact hrest i r (by simpa [declIdentAt] using hid) hmem

theorem contains_iff_mem {l : List String} {x : String} :
    l.contains x = true ↔ x ∈ l :=
  List.elem_iff

theorem checkRefsWalk_eq_none_iff (stmts : List Statement) (known : List String) :
    checkRefsWalk stmts known = none ↔
      (RefsChecked stmts known ∧ DeclsFresh stmts known) := by
  induction stmts generalizing known with
  | nil =>
    simp [checkRefsWalk, RefsChecked, DeclsFresh, cmdAt, declIdentAt]
  | cons st rest ih =>
    rw [refsChecked_cons, declsFresh_cons]
    simp only [checkRefsWalk]
    split
    next e heq =>
      constructor
      · intro h; simp at h
      · rintro ⟨⟨h0, -⟩, -⟩
        split at heq
        next hc =>
          split at heq
          next r hf =>
            have hrmem := List.mem_of_find?_eq_some hf
            have hrb := List.find?_some hf
            have hin : r ∈ known := h0 _ hc r hrmem
            simp only [Bool.not_eq_true'] at hrb
            refine absurd hin ?_
            intro hm
            rw [contains_iff_mem.mpr hm] at hrb
            exact Bool.noConfusion hrb
          next hf => simp at heq
        next hc => simp at heq
    next heq =>
      have hok : ∀ c, commandOfNode st.node = some c →
          ∀ r ∈ alValues c.refs, r ∈ known := by
        intro c hc r hr
        split at heq
        next c' hc' =>
          rw [hc] at hc'
          injection hc' with hcc
          subst hcc
          split at heq
          next r' hf => simp at heq
          next hf =>
            have := List.find?_eq_none.mp hf r hr
            simp [contains_iff_mem] at this
            exact this
        next hc' =>
          rw [hc] at hc'
          exact Option.noConfusion hc'
      split
      next ident hd =>
        have hh : headIds st = [ident] := by simp [headIds, hd]
        rw [hh]
        by_cases hct : known.contains ident = true
        · rw [if_pos hct]
          constructor
          · intro h; simp at h
          · rintro ⟨-, hfresh, -⟩
            exact absurd (contains_iff_mem.mp hct) (hfresh ident hd)
        · rw [if_neg hct, ih (known ++ [ident])]
          constructor
          · rintro ⟨hA, hB⟩
            refine ⟨⟨hok, hA⟩, ⟨?_, hB⟩⟩
            intro id' hid'
            rw [hd] at hid'
            injection hid' with hh2
            subst hh2
            exact fun hm => hct (contains_iff_mem.mpr hm)
          · rintro ⟨⟨-, hA⟩, ⟨-, hB⟩⟩
            exact ⟨hA, hB⟩
      next hd =>
        have hh : headIds st = [] := by simp [headIds, hd]
        rw [hh, List.append_nil, ih known]
        constructor
        · rintro ⟨hA, hB⟩
          refine ⟨⟨hok, hA⟩, ⟨?_, hB⟩⟩
          intro id' hid'
          rw [hd] at hid'
          cases hid'
        · rintro ⟨⟨-, hA⟩, ⟨-, hB⟩⟩
          exact ⟨hA, hB⟩

theorem checkRefsWalk_eq_some (stmts : List Statement) (known : List String)
    (msg : String) (h : checkRefsWalk stmts known = some msg) :
    (∃ r, msg = undefinedRefMsg r ∧ ∃ i c, cmdAt stmts i = some c
        ∧ r ∈ alValues c.refs ∧ r ∉ known ++ declIdents (stmts.take i))
    ∨ (∃ r, msg = alreadyAssignedMsg r ∧ ∃ i, declIdentAt stmts i = some r
        ∧ r ∈ known ++ declIdents (stmts.take i)) := by
  induction stmts generalizing known with
  | nil => simp [checkRefsWalk] at h
  | cons st rest ih =>
    simp only [checkRefsWalk] at h
    split at h
    next e heq =>
      injection h with he
      subst he
      split at heq
      next c hc =>
        split at heq
        next r hf =>
          injection heq with h1
          left
          refine ⟨r, h1.symm, 0, c, by simp [cmdAt, hc],
            List.mem_of_find?_eq_some hf, ?_⟩
          simp only [List.take_zero, declIdents, List.filterMap_nil, List.append_nil]
          intro hm
          have hrb := List.find?_some hf
          rw [contains_iff_mem.mpr hm] at hrb
          exact Bool.noConfusion hrb
        next hf => exact Option.noConfusion heq
      next hc => exact Option.noConfusion heq
    next heq =>
      split at h
      next ident hd =>
        by_cases hct : known.contains ident = true
        · rw [if_pos hct] at h
          injection h with he
          right
          refine ⟨ident, he.symm, 0, by simp [declIdentAt, hd], ?_⟩
          simp only [List.take_zero, declIdents, List.filterMap_nil, List.append_nil]
          exact contains_iff_mem.mp hct
        · rw [if_neg hct] at h
          have hh : headIds st = [ident] := by simp [headIds, hd]
          rcases ih (known ++ [ident]) h with
            ⟨r, hmsg, i, c, hcmd, hrmem, hnk⟩ | ⟨r, hmsg, i, hdecl, hk⟩
          · left
            refine ⟨r, hmsg, i + 1, c, by simpa [cmdAt] using hcmd, hrmem, ?_⟩
            rw [List.take_succ_cons, declIdents_cons, hh, ← List.append_assoc]
            exact hnk
          · right
            refine ⟨r, hmsg, i + 1, by simpa [declIdentAt] using hdecl, ?_⟩
            rw [List.take_succ_cons, declIdents_cons, hh, ← List.append_assoc]
            exact hk
      next hd =>
        have hh : headIds st = [] := by simp [headIds, hd]
        rcases ih known h with
          ⟨r, hmsg, i, c, hcmd, hrmem, hnk⟩ | ⟨r, hmsg, i, hdecl, hk⟩
        · left
          refine ⟨r, hmsg, i + 1, c, by simpa [cmdAt] using hcmd, hrmem, ?_⟩
          rw [List.take_succ_cons, declIdents_cons, hh, List.nil_append]
          exact hnk
        · right
          refine ⟨r, hmsg, i + 1, by simpa [declIdentAt] using hdecl, ?_⟩
          rw [List.take_succ_cons, declIdents_cons, hh, List.nil_append]
          exact hk

/-- C3: `checkInvalidReferenceDeclarations` walks the statements in
document order with a growing set of known identifiers. It succeeds — with
the template and environment returned unchanged — exactly when no command
(direct or inside an assignment) uses a reference not assigned by an
earlier statement and no identifier is assigned twice; and when it fails,
the error is `using reference '$r' but 'r' is undefined in template\n` for
a reference `r` that is used but not assigned earlier, or
`using reference '$r' but 'r' has already been assigned in template\n` for
an identifier `r` reassigned by a later statement. -/
theorem c3_check_invalid_references (tpl : Template) (env : Env) :
    (checkInvalidReferenceDeclarations tpl env = .ret tpl env none ↔
      (¬ UndefViolation tpl.statements ∧ ¬ DupViolation tpl.statements))
    ∧ (∀ t e msg, checkInvalidReferenceDeclarations tpl env = .ret t e (some msg) →
        t = tpl ∧ e = env
        ∧ ((∃ r, msg = undefinedRefMsg r ∧ ∃ i c, cmdAt tpl.statements i = some c
              ∧ r ∈ alValues c.refs ∧ r ∉ declIdents (tpl.statements.take i))
           ∨ (∃ r, msg = alreadyAssignedMsg r
              ∧ ∃ i, declIdentAt tpl.statements i = some r
                ∧ r ∈ declIdents (tpl.statements.take i)))) := by
  constructor
  · unfold checkInvalidReferenceDeclarations
    constructor
    · intro h
      injection h with _ _ h3
      have hspec := (checkRefsWalk_eq_none_iff tpl.statements []).mp h3
      constructor
      · rintro ⟨i, c, r, hc, hr, hnk⟩
        have := hspec.1 i c r hc hr
        rw [List.nil_append] at this
        exact hnk this
      · rintro ⟨i, r, hd, hk⟩
        have := hspec.2 i r hd
        rw [List.nil_append] at this
        exact this hk
    · rintro ⟨hU, hD⟩
      have hnone : checkRefsWalk tpl.statements [] = none := by
        rw [checkRefsWalk_eq_none_iff]
        constructor
        · intro i c r hc hr
          rw [List.nil_append]
          by_contra hn
          exact hU ⟨i, c, r, hc, hr, hn⟩
        · intro i r hd hk
          rw [List.nil_append] at hk
          exact hD ⟨i, r, hd, hk⟩
      rw [hnone]
  · intro t e msg h
    unfold checkInvalidReferenceDeclarations at h
    injection h with h1 h2 h3
    refine ⟨h1.symm, h2.symm, ?_⟩
    have := checkRefsWalk_eq_some tpl.statements [] msg h3
    simp only [List.nil_append] at this
    exact this

/-- The template of scenario S5: `x = 1` then `x = 2`. -/
def tplS5 : Template :=
  { id := "",
    statements :=
      [⟨0, .declNode "x" (.valExpr { value := .vint 1, hole := "" })⟩,
       ⟨1, .declNode "x" (.valExpr { value := .vint 2, hole := "" })⟩] }

/-- Witness for C3, scenario S5: reassigning `x` fails with the
already-assigned error, and the error is accounted for by the duplicate
identifier at index 1. -/
theorem c3_check_invalid_references_witness :
    checkInvalidReferenceDeclarations tplS5 envEmpty =
      .ret tplS5 envEmpty
        (some "using reference '$x' but 'x' has already been assigned in template\n")
    ∧ ((∃ r, "using reference '$x' but 'x' has already been assigned in template\n"
          = undefinedRefMsg r ∧ ∃ i c, cmdAt tplS5.statements i = some c
          ∧ r ∈ alValues c.refs ∧ r ∉ declIdents (tplS5.statements.take i))
       ∨ (∃ r, "using reference '$x' but 'x' has already been assigned in template\n"
          = alreadyAssignedMsg r ∧ ∃ i, declIdentAt tplS5.statements i = some r
          ∧ r ∈ declIdents (tplS5.statements.take i))) := by
  refine ⟨rfl, ?_⟩
  have h := (c3_check_invalid_references tplS5 envEmpty).2 tplS5 envEmpty
    "using reference '$x' but 'x' has already been assigned in template\n" rfl
  exact h.2.2

end Awless
